import Mathlib

/-!
Verification of the `unifind` NamesList parser and matcher (`src/main.go`,
the version with `Category`/`Subcategory` tracking).

Go strings are modelled as lists of characters.  Go slices are modelled by
value (the Go code's reuse of the `desc` backing array after `desc[0:0]` can
alias the `FullDesc` of previously emitted records at runtime; no claim
below depends on the post-return contents of a non-final record's
`FullDesc`, and the matcher always runs before the reset).  Case mapping is
modelled on the ASCII range of `strings.ToLower`.  A Go panic is modelled
as `none`; text written by `errorf` to stderr is modelled as an emitted
list of diagnostics.
-/

namespace Unifind

/-- A Go string, as its list of characters. -/
abbrev Str := List Char

/-- One character of `strings.ToLower`, on the ASCII range. -/
def charLower (c : Char) : Char :=
  if 'A' ≤ c ∧ c ≤ 'Z' then Char.ofNat (c.toNat + 32) else c

/-- `strings.ToLower`. -/
def toLower (s : Str) : Str := s.map charLower

/-- `strings.Split(s, "\t")`. -/
def splitTab : Str → List Str
  | [] => [[]]
  | c :: cs =>
    match splitTab cs with
    | [] => [[]]
    | r :: rs => if c = '\t' then [] :: r :: rs else (c :: r) :: rs

/-- `strings.Contains(s, sub)`. -/
def strContains : Str → Str → Bool
  | [], sub => sub.isEmpty
  | c :: cs, sub => sub.isPrefixOf (c :: cs) || strContains cs sub

/-- The whitespace test of `strings.Fields` (`unicode.IsSpace` on Latin-1). -/
def isSpaceChar (c : Char) : Bool :=
  c = ' ' || c = '\t' || c = '\n' || c = '\r' ||
  c.toNat = 11 || c.toNat = 12 || c.toNat = 133 || c.toNat = 160

/-- Accumulator worker for `fields`; `acc` holds the current field reversed. -/
def fieldsAux : Str → Str → List Str
  | acc, [] => if acc.isEmpty then [] else [acc.reverse]
  | acc, c :: cs =>
    if isSpaceChar c then
      if acc.isEmpty then fieldsAux [] cs else acc.reverse :: fieldsAux [] cs
    else fieldsAux (c :: acc) cs

/-- `strings.Fields`: split on runs of whitespace, dropping empty fields. -/
def fields (s : Str) : List Str := fieldsAux [] s

/-- `strings.Join(l, " ")`. -/
def joinSpace : List Str → Str
  | [] => []
  | [a] => a
  | a :: b :: rest => a ++ ' ' :: joinSpace (b :: rest)

/-- One hexadecimal digit, as accepted by `strconv.ParseInt` with base 16. -/
def hexDigit (c : Char) : Option Nat :=
  if '0' ≤ c ∧ c ≤ '9' then some (c.toNat - 48)
  else if 'a' ≤ c ∧ c ≤ 'f' then some (c.toNat - 87)
  else if 'A' ≤ c ∧ c ≤ 'F' then some (c.toNat - 55)
  else none

/-- Accumulating digit loop of `strconv.ParseUint` (base 16). -/
def hexDigitsAux : Nat → Str → Option Nat
  | acc, [] => some acc
  | acc, c :: cs =>
    match hexDigit c with
    | none => none
    | some d => hexDigitsAux (acc * 16 + d) cs

/-- Digit run of `strconv.ParseUint` base 16: at least one digit, all hex. -/
def hexDigits : Str → Option Nat
  | [] => none
  | s => hexDigitsAux 0 s

/-- `strconv.ParseInt(s, 16, 32)`: optional sign, hex digits, 32-bit signed
range check.  `none` models a non-nil error (in which case the Go caller
discards the clamped value). -/
def parseIntHex32 (s : Str) : Option Int :=
  match s with
  | '+' :: rest =>
    (hexDigits rest).bind fun n => if n ≤ 2 ^ 31 - 1 then some (n : Int) else none
  | '-' :: rest =>
    (hexDigits rest).bind fun n => if n ≤ 2 ^ 31 then some (-(n : Int)) else none
  | _ =>
    (hexDigits s).bind fun n => if n ≤ 2 ^ 31 - 1 then some (n : Int) else none

/-- The `Category` struct of main.go; the zero value has every field empty. -/
structure Category where
  Name : Str := []
  Start : Str := []
  End : Str := []
  Description : Str := []
deriving DecidableEq, Repr

/-- The `CodePoint` struct of main.go. `Chr` is the `rune` field. -/
structure CodePoint where
  Chr : Int
  Desc : Str
  FullDesc : List Str
  Cat : Category
  Subcategory : Str
deriving DecidableEq, Repr

/-- A diagnostic written by `errorf` on stderr. -/
inductive Diag where
  | invalidRune (schr : Str)
  | invalidFormat (nFields : Nat) (line : Str)
deriving DecidableEq, Repr

/-- The local variables of `searchNamesList` that the line loop threads:
the pending record (`schr`, `desc`, `ccat`, `cscat`), the running
`category`/`subcategory` context, and the accumulated result list `cp`. -/
structure ParseState where
  schr : Str
  ccat : Category
  cscat : Str
  desc : List Str
  category : Category
  subcategory : Str
  cp : List CodePoint
deriving DecidableEq, Repr

/-- The state at entry of the loop: Go zero values everywhere. -/
def initState : ParseState :=
  { schr := [], ccat := {}, cscat := [], desc := [], category := {},
    subcategory := [], cp := [] }

/-- `matchAll` from main.go: every whitespace-separated part of the (already
lowered) query must occur as a substring of at least one target string. -/
def matchAll (target : List Str) (query : Str) : Bool :=
  (fields query).all fun part => target.any fun t => strContains t part

/-- The `matcher` closure of `searchNamesList`: evaluates the pending record
against the lowered query; on a match it parses `schr` (on error it emits the
`invalid rune` diagnostic and drops the record) and appends a `CodePoint`.
`none` models the Go panic of `desc[0]` on an empty description list. -/
def matcher (search : Str) (st : ParseState) : Option (ParseState × List Diag) :=
  if matchAll st.desc search
      || matchAll [toLower st.ccat.Name, toLower st.cscat] search then
    match parseIntHex32 st.schr with
    | none => some (st, [Diag.invalidRune st.schr])
    | some i =>
      match st.desc with
      | [] => none
      | d :: _ =>
        some ({ st with cp := st.cp ++ [⟨i, d, st.desc, st.ccat, st.cscat⟩] }, [])
  else some (st, [])

/-- Prefix `"@\t\t"` of a subcategory marker line. -/
def subcatTag : Str := '@' :: '\t' :: '\t' :: []

/-- Prefix `"@@\t"` of a category header line. -/
def catTag : Str := '@' :: '@' :: '\t' :: []

/-- Prefix `"@+\t\t"` of a category description line. -/
def catDescTag : Str := '@' :: '+' :: '\t' :: '\t' :: []

/-- Prefix `";"` of a comment line. -/
def semiTag : Str := ';' :: []

/-- Prefix `"@"` of any other at-line. -/
def atTag : Str := '@' :: []

/-- Prefix `"\t\t"` of an ignorable double-tab line. -/
def twoTabTag : Str := '\t' :: '\t' :: []

/-- One iteration of the line loop of `searchNamesList`.  Returns the updated
state together with the diagnostics this line wrote; `none` models a panic
(the unchecked `parts[1]`, `parts[2]`, `parts[3]` of the header branch, and
`desc[0]` inside `matcher`). -/
def processLine (search : Str) (st : ParseState) (line : Str) :
    Option (ParseState × List Diag) :=
  if subcatTag.isPrefixOf line then
    some ({ st with subcategory := line.drop 3 }, [])
  else if catTag.isPrefixOf line then
    let parts := splitTab line
    match parts[1]?, parts[2]?, parts[3]? with
    | some p1, some p2, some p3 =>
      some ({ st with category := { Name := p2, Start := p1, End := p3 } }, [])
    | _, _, _ => none
  else if catDescTag.isPrefixOf line then
    some ({ st with category := { st.category with Description := line.drop 4 } }, [])
  else if semiTag.isPrefixOf line || atTag.isPrefixOf line
      || twoTabTag.isPrefixOf line then
    some (st, [])
  else
    match splitTab line with
    | [p0, p1] =>
      if p0.isEmpty then
        some ({ st with desc := st.desc ++ [toLower p1] }, [])
      else
        match matcher search st with
        | none => none
        | some (st2, ds) =>
          some ({ st2 with schr := p0, desc := [toLower p1],
                           ccat := st2.category, cscat := st2.subcategory }, ds)
    | parts => some (st, [Diag.invalidFormat parts.length line])

/-- The line loop of `searchNamesList` over a document given as its lines. -/
def processLines (search : Str) : List Str → ParseState → Option (ParseState × List Diag)
  | [], st => some (st, [])
  | l :: ls, st =>
    match processLine search st l with
    | none => none
    | some (st2, ds) =>
      match processLines search ls st2 with
      | none => none
      | some (st3, ds2) => some (st3, ds ++ ds2)

/-- `searchNamesList` from main.go, over a document given as its list of
lines (the `bufio.Scanner` splitting): lower the query, run the line loop
from the zero state, run `matcher` once more after end of input, and return
the accumulated `cp` list.  `none` models a panic. -/
def searchNamesList (search : Str) (doc : List Str) : Option (List CodePoint) :=
  let q := toLower search
  match processLines q doc initState with
  | none => none
  | some (st, _) =>
    match matcher q st with
    | none => none
    | some (st2, _) => some st2.cp

/-! ## A per-record (gold) restatement of the parse, for the emission invariant

`collectRecs` decomposes the document into finalized raw records — each
opened by a well-formed data line with a non-empty code-point field,
carrying the category/subcategory in effect at that point and the full
ordered list of its lowered description lines — and `goldSearch` evaluates
every collected record exactly once, on its fully assembled description. -/

/-- A finalized raw record: the code-point text of its opening line, its
fully assembled lowered description block, and the category/subcategory
captured when it was opened. -/
structure RawRec where
  schr : Str
  descL : List Str
  cat : Category
  subcat : Str
deriving DecidableEq, Repr

/-- Finalize the pending record, if one is open. -/
def closeRec : Option RawRec → List RawRec
  | none => []
  | some r => [r]

/-- Decompose a document into its finalized records, in order.  `none`
models the header-branch panic on a short `"@@\t"` line. -/
def collectRecs : Category → Str → Option RawRec → List Str → Option (List RawRec)
  | _, _, opn, [] => some (closeRec opn)
  | cat, sub, opn, l :: ls =>
    if subcatTag.isPrefixOf l then collectRecs cat (l.drop 3) opn ls
    else if catTag.isPrefixOf l then
      let parts := splitTab l
      match parts[1]?, parts[2]?, parts[3]? with
      | some p1, some p2, some p3 =>
        collectRecs { Name := p2, Start := p1, End := p3 } sub opn ls
      | _, _, _ => none
    else if catDescTag.isPrefixOf l then
      collectRecs { cat with Description := l.drop 4 } sub opn ls
    else if semiTag.isPrefixOf l || atTag.isPrefixOf l || twoTabTag.isPrefixOf l then
      collectRecs cat sub opn ls
    else
      match splitTab l with
      | [p0, p1] =>
        if p0.isEmpty then
          collectRecs cat sub
            (opn.map fun r => { r with descL := r.descL ++ [toLower p1] }) ls
        else
          (collectRecs cat sub (some ⟨p0, [toLower p1], cat, sub⟩) ls).map
            fun rest => closeRec opn ++ rest
      | _ => collectRecs cat sub opn ls

/-- Evaluate one finalized record against the lowered query: the code's
match predicate on the full description block, the category/subcategory
fallback, and the hexadecimal parse of its code-point text. -/
def evalRec (q : Str) (r : RawRec) : Option CodePoint :=
  if matchAll r.descL q || matchAll [toLower r.cat.Name, toLower r.subcat] q then
    match parseIntHex32 r.schr with
    | none => none
    | some i =>
      match r.descL with
      | [] => none
      | d :: _ => some ⟨i, d, r.descL, r.cat, r.subcat⟩
  else none

/-- Per-record restatement of the search: collect every finalized record,
then evaluate each exactly once on its fully assembled description. -/
def goldSearch (search : Str) (doc : List Str) : Option (List CodePoint) :=
  let q := toLower search
  (collectRecs {} [] none doc).map fun recs => recs.filterMap (evalRec q)

/-- The pending record held in a mid-loop state, if one is open. -/
def openOf (st : ParseState) : Option RawRec :=
  if st.schr.isEmpty then none else some ⟨st.schr, st.desc, st.ccat, st.cscat⟩

/-! ## The category exclusion filter (modelled from the spec) -/

/-- A line that reaches the data-line branch of the loop: not a comment,
not an at-line of any kind, not a double-tab line. -/
def isDataLine (line : Str) : Bool :=
  !(semiTag.isPrefixOf line) && !(atTag.isPrefixOf line)
    && !(twoTabTag.isPrefixOf line)

/-- Modelled from the spec: the category exclusion filter is absent from
src/main.go.  "Before processing a data line, if the current Category's
name matches a fixed exclusion set (specific named scripts the tool
deliberately omits), the line is skipped without affecting
Subcategory/Category state tracking for other records."  The set is the
parameter `excl`. -/
def processLineEx (excl : List Str) (search : Str) (st : ParseState) (line : Str) :
    Option (ParseState × List Diag) :=
  if isDataLine line = true ∧ st.category.Name ∈ excl then some (st, [])
  else processLine search st line

/-- The line loop with the spec-modelled exclusion filter. -/
def processLinesEx (excl : List Str) (search : Str) :
    List Str → ParseState → Option (ParseState × List Diag)
  | [], st => some (st, [])
  | l :: ls, st =>
    match processLineEx excl search st l with
    | none => none
    | some (st2, ds) =>
      match processLinesEx excl search ls st2 with
      | none => none
      | some (st3, ds2) => some (st3, ds ++ ds2)

/-- `searchNamesList` with the spec-modelled exclusion filter. -/
def searchNamesListEx (excl : List Str) (search : Str) (doc : List Str) :
    Option (List CodePoint) :=
  let q := toLower search
  match processLinesEx excl q doc initState with
  | none => none
  | some (st, _) =>
    match matcher q st with
    | none => none
    | some (st2, _) => some st2.cp

/-! ## The distinct-categories listing (modelled from the spec) -/

/-- Lexicographic (bytewise, as Go compares strings) order on `Str`. -/
def strLe : Str → Str → Bool
  | [], _ => true
  | _ :: _, [] => false
  | a :: as, b :: bs =>
    if a.toNat < b.toNat then true
    else if b.toNat < a.toNat then false
    else strLe as bs

/-- `strLe` as a relation, for sorting. -/
def strLeRel (a b : Str) : Prop := strLe a b = true

instance : DecidableRel strLeRel :=
  fun a b => inferInstanceAs (Decidable (strLe a b = true))

/-- Modelled from the spec: the `cats` flag is absent from src/main.go.
"Print the sorted set of distinct category names among matches, one per
line, instead of character results"; the distinct-categories listing is
sorted lexicographically. -/
def catsOutput (cps : List CodePoint) : List Str :=
  List.insertionSort strLeRel ((cps.map fun c => c.Cat.Name).dedup)

/-! ## Fixtures -/

/-- The document of the spec's first scenario: category header, subcategory
marker, one data line. -/
def doc3 : List Str :=
  ["@@\t0000\tBasic Latin\t007F".data, "@\t\tControls".data,
   "0041\tLATIN CAPITAL LETTER A".data]

/-- The single record the first scenario returns. -/
def rec3 : CodePoint :=
  ⟨0x41, "latin capital letter a".data, ["latin capital letter a".data],
   ⟨"Basic Latin".data, "0000".data, "007F".data, []⟩, "Controls".data⟩

/-- A document whose subcategory marker is followed by a category header:
the record under the new category still carries the old subcategory. -/
def doc5 : List Str :=
  ["@@\t0000\tAlpha\t007F".data, "@\t\tSub1".data,
   "@@\t0080\tBeta\t00FF".data, "0081\tFOO".data]

/-- The record doc5 yields for the query "sub1". -/
def rec5 : CodePoint :=
  ⟨0x81, "foo".data, ["foo".data],
   ⟨"Beta".data, "0080".data, "00FF".data, []⟩, "Sub1".data⟩

/-- Two matching records in "Basic Latin" and one in "Greek". -/
def doc9 : List Str :=
  ["@@\t0000\tBasic Latin\t007F".data, "0041\tA ONE".data, "0042\tA TWO".data,
   "@@\t0370\tGreek\t03FF".data, "0391\tA THREE".data]

/-- A one-line document whose single record stays open at end of input. -/
def docW : List Str := ["0041\tFOO".data]

/-! ## Basic facts about the loop state -/

/-- The loop invariant: either no record is open (`schr` is still the zero
value) or the open record's description list is non-empty (its opening data
line already contributed its text field). -/
def Inv (st : ParseState) : Prop := st.schr = [] ∨ st.desc ≠ []

theorem parseIntHex32_nil : parseIntHex32 [] = none := rfl

theorem initState_Inv : Inv initState := Or.inl rfl

theorem matcher_cp (q : Str) (st : ParseState) (h : Inv st) :
    ∃ ds, matcher q st =
      some ({ st with cp := st.cp ++ (closeRec (openOf st)).filterMap (evalRec q) }, ds) := by
  obtain ⟨schr, ccat, cscat, desc, category, subcategory, cp⟩ := st
  simp only [Inv] at h
  by_cases hg : (matchAll desc q || matchAll [toLower ccat.Name, toLower cscat] q) = true
  · rcases hp : parseIntHex32 schr with _ | i
    · refine ⟨[Diag.invalidRune schr], ?_⟩
      rcases schr with _ | ⟨c, cs⟩ <;>
        simp [matcher, hg, hp, openOf, closeRec, evalRec]
    · have hs : schr ≠ [] := by
        intro hnil
        rw [hnil, parseIntHex32_nil] at hp
        exact Option.noConfusion hp
      have hd : desc ≠ [] := by
        rcases h with h | h
        · exact absurd h hs
        · exact h
      rcases schr with _ | ⟨c, cs⟩
      · exact absurd rfl hs
      rcases desc with _ | ⟨d, t⟩
      · exact absurd rfl hd
      refine ⟨[], ?_⟩
      simp [matcher, hg, hp, openOf, closeRec, evalRec]
  · refine ⟨[], ?_⟩
    rcases schr with _ | ⟨c, cs⟩ <;>
      simp [matcher, hg, openOf, closeRec, evalRec]

theorem Inv_processLine {q : Str} {st : ParseState} {l : Str} {st' : ParseState}
    {ds : List Diag} (hpl : processLine q st l = some (st', ds)) (h : Inv st) :
    Inv st' := by
  unfold processLine at hpl
  split at hpl
  · cases hpl; exact h
  · split at hpl
    · dsimp only at hpl
      split at hpl
      · cases hpl; exact h
      · exact Option.noConfusion hpl
    · split at hpl
      · cases hpl; exact h
      · split at hpl
        · cases hpl; exact h
        · split at hpl
          · split at hpl
            · cases hpl
              exact Or.inr (by simp)
            · split at hpl
              · exact Option.noConfusion hpl
              · cases hpl
                exact Or.inr (by simp)
          · cases hpl; exact h

/-- The result `searchNamesList` would return when the remaining input is
`doc` and the loop state is `st`: run the loop, run the final `matcher`,
project out `cp`. -/
def finishFrom (q : Str) (doc : List Str) (st : ParseState) : Option (List CodePoint) :=
  match processLines q doc st with
  | none => none
  | some (st2, _) => (matcher q st2).map fun p => p.1.cp

theorem searchNamesList_eq_finishFrom (search : Str) (doc : List Str) :
    searchNamesList search doc = finishFrom (toLower search) doc initState := by
  unfold searchNamesList finishFrom
  rcases h : processLines (toLower search) doc initState with _ | ⟨st, ds⟩
  · simp [h]
  · rcases hm : matcher (toLower search) st with _ | ⟨st2, ds2⟩ <;> simp [h, hm]

theorem finishFrom_cons (q l : Str) (ls : List Str) (st : ParseState) :
    finishFrom q (l :: ls) st =
      match processLine q st l with
      | none => none
      | some (st2, _) => finishFrom q ls st2 := by
  unfold finishFrom
  simp only [processLines]
  rcases processLine q st l with _ | ⟨st2, ds⟩
  · rfl
  · rcases h2 : processLines q ls st2 with _ | ⟨st3, ds2⟩ <;> simp [h2]

theorem openOf_append_desc (st : ParseState) (x : Str) :
    openOf { st with desc := st.desc ++ [x] }
      = (openOf st).map fun r => { r with descL := r.descL ++ [x] } := by
  by_cases hs : st.schr.isEmpty = true <;> simp [openOf, hs]

/-- The incremental loop computes exactly the per-record (gold) evaluation:
running the loop from any invariant-satisfying state and finishing equals
collecting the remaining finalized records and evaluating each exactly once
on its fully assembled description block. -/
theorem toGold (q : Str) : ∀ (doc : List Str) (st : ParseState), Inv st →
    finishFrom q doc st
    = (collectRecs st.category st.subcategory (openOf st) doc).map
        fun recs => st.cp ++ recs.filterMap (evalRec q) := by
  intro doc
  induction doc with
  | nil =>
    intro st hinv
    obtain ⟨ds, hm⟩ := matcher_cp q st hinv
    simp [finishFrom, processLines, collectRecs, hm]
  | cons l ls IH =>
    intro st hinv
    rw [finishFrom_cons]
    by_cases h1 : subcatTag.isPrefixOf l = true
    · have hpl : processLine q st l = some ({ st with subcategory := l.drop 3 }, []) := by
        simp [processLine, h1]
      rw [hpl]
      show finishFrom q ls { st with subcategory := l.drop 3 } = _
      rw [IH { st with subcategory := l.drop 3 } hinv]
      simp [collectRecs, h1, openOf]
    · by_cases h2 : catTag.isPrefixOf l = true
      · rcases e1 : (splitTab l)[1]? with _ | p1
        · have hpl : processLine q st l = none := by
            simp [processLine, h1, h2, e1]
          rw [hpl]
          show none = _
          simp [collectRecs, h1, h2, e1]
        · rcases e2 : (splitTab l)[2]? with _ | p2
          · have hpl : processLine q st l = none := by
              simp [processLine, h1, h2, e1, e2]
            rw [hpl]
            show none = _
            simp [collectRecs, h1, h2, e1, e2]
          · rcases e3 : (splitTab l)[3]? with _ | p3
            · have hpl : processLine q st l = none := by
                simp [processLine, h1, h2, e1, e2, e3]
              rw [hpl]
              show none = _
              simp [collectRecs, h1, h2, e1, e2, e3]
            · have hpl : processLine q st l =
                  some ({ st with category := { Name := p2, Start := p1, End := p3 } }, []) := by
                simp [processLine, h1, h2, e1, e2, e3]
              rw [hpl]
              show finishFrom q ls { st with category := { Name := p2, Start := p1, End := p3 } } = _
              rw [IH { st with category := { Name := p2, Start := p1, End := p3 } } hinv]
              simp [collectRecs, h1, h2, e1, e2, e3, openOf]
      · by_cases h3 : catDescTag.isPrefixOf l = true
        · have hpl : processLine q st l =
              some ({ st with category := { st.category with Description := l.drop 4 } }, []) := by
            simp [processLine, h1, h2, h3]
          rw [hpl]
          show finishFrom q ls { st with category := { st.category with Description := l.drop 4 } } = _
          rw [IH { st with category := { st.category with Description := l.drop 4 } } hinv]
          simp [collectRecs, h1, h2, h3, openOf]
        · by_cases h4 : (semiTag.isPrefixOf l || atTag.isPrefixOf l
              || twoTabTag.isPrefixOf l) = true
          · have hpl : processLine q st l = some (st, []) := by
              simp [processLine, h1, h2, h3, h4]
            rw [hpl]
            show finishFrom q ls st = _
            rw [IH _ hinv]
            simp [collectRecs, h1, h2, h3, h4]
          · rcases hsp : splitTab l with _ | ⟨p0, tl⟩
            · have hpl : processLine q st l = some (st, [Diag.invalidFormat 0 l]) := by
                simp [processLine, h1, h2, h3, h4, hsp]
              rw [hpl]
              show finishFrom q ls st = _
              rw [IH _ hinv]
              simp [collectRecs, h1, h2, h3, h4, hsp]
            · rcases tl with _ | ⟨p1, tl2⟩
              · have hpl : processLine q st l = some (st, [Diag.invalidFormat 1 l]) := by
                  simp [processLine, h1, h2, h3, h4, hsp]
                rw [hpl]
                show finishFrom q ls st = _
                rw [IH _ hinv]
                simp [collectRecs, h1, h2, h3, h4, hsp]
              · rcases tl2 with _ | ⟨p2, tl3⟩
                · -- exactly two fields: a data line
                  by_cases hp0 : p0.isEmpty = true
                  · have hpl : processLine q st l =
                        some ({ st with desc := st.desc ++ [toLower p1] }, []) := by
                      simp [processLine, h1, h2, h3, h4, hsp, hp0]
                    rw [hpl]
                    show finishFrom q ls { st with desc := st.desc ++ [toLower p1] } = _
                    rw [IH { st with desc := st.desc ++ [toLower p1] } (Or.inr (by simp))]
                    simp only [collectRecs, h1, h2, h3, h4, hsp, hp0]
                    rw [openOf_append_desc]
                    simp [collectRecs, h1, h2, h3, h4, hsp, hp0]
                  · obtain ⟨ds, hm⟩ := matcher_cp q st hinv
                    have hpl : processLine q st l =
                        some ({ st with
                                  schr := p0, desc := [toLower p1],
                                  ccat := st.category, cscat := st.subcategory,
                                  cp := st.cp ++ (closeRec (openOf st)).filterMap (evalRec q) },
                              ds) := by
                      simp [processLine, h1, h2, h3, h4, hsp, hp0, hm]
                    rw [hpl]
                    show finishFrom q ls
                        { st with schr := p0, desc := [toLower p1],
                                  ccat := st.category, cscat := st.subcategory,
                                  cp := st.cp ++ (closeRec (openOf st)).filterMap (evalRec q) } = _
                    rw [IH { st with
                                  schr := p0, desc := [toLower p1],
                                  ccat := st.category, cscat := st.subcategory,
                                  cp := st.cp ++ (closeRec (openOf st)).filterMap (evalRec q) }
                        (Or.inr (by simp))]
                    simp only [collectRecs, h1, h2, h3, h4, hsp, hp0]
                    have hopen : openOf
                        { st with schr := p0, desc := [toLower p1],
                                  ccat := st.category, cscat := st.subcategory,
                                  cp := st.cp ++ (closeRec (openOf st)).filterMap (evalRec q) }
                        = some ⟨p0, [toLower p1], st.category, st.subcategory⟩ := by
                      simp [openOf, hp0]
                    rw [hopen]
                    rcases hc : collectRecs st.category st.subcategory
                        (some ⟨p0, [toLower p1], st.category, st.subcategory⟩) ls with _ | rest
                    · simp [hc]
                    · simp [hc, List.filterMap_append, List.append_assoc]
                · have hpl : processLine q st l =
                      some (st, [Diag.invalidFormat (p0 :: p1 :: p2 :: tl3).length l]) := by
                    simp [processLine, h1, h2, h3, h4, hsp]
                  rw [hpl]
                  show finishFrom q ls st = _
                  rw [IH _ hinv]
                  simp [collectRecs, h1, h2, h3, h4, hsp]

/-! ## Splitting the loop over a document decomposition -/

theorem processLines_append (q : Str) :
    ∀ (a b : List Str) (st : ParseState),
      processLines q (a ++ b) st =
        match processLines q a st with
        | none => none
        | some (st2, ds) =>
          match processLines q b st2 with
          | none => none
          | some (st3, ds2) => some (st3, ds ++ ds2) := by
  intro a
  induction a with
  | nil =>
    intro b st
    simp only [List.nil_append, processLines]
    rcases h : processLines q b st with _ | ⟨st3, ds2⟩ <;> simp [h]
  | cons l a IH =>
    intro b st
    simp only [List.cons_append, processLines, List.append_eq]
    rcases h : processLine q st l with _ | ⟨st2, ds⟩
    · rfl
    · dsimp only
      rw [IH]
      rcases h2 : processLines q a st2 with _ | ⟨st3, ds3⟩
      · rfl
      · rcases h3 : processLines q b st3 with _ | ⟨st4, ds4⟩ <;>
          simp [h3, List.append_assoc]

theorem finishFrom_append (q : Str) (a b : List Str) (st : ParseState) :
    finishFrom q (a ++ b) st =
      match processLines q a st with
      | none => none
      | some (st2, _) => finishFrom q b st2 := by
  unfold finishFrom
  rw [processLines_append]
  rcases h : processLines q a st with _ | ⟨st2, ds⟩
  · rfl
  · rcases h2 : processLines q b st2 with _ | ⟨st3, ds2⟩ <;> simp [h2]

/-! ## Totality of the loop under the header-shape precondition -/

theorem matcher_isSome (q : Str) (st : ParseState) (h : Inv st) :
    ∃ p, matcher q st = some p := by
  obtain ⟨ds, hm⟩ := matcher_cp q st h
  exact ⟨_, hm⟩

/-- Under the loop invariant, a line whose `"@@\t"` form (if any) has at
least four tab-separated fields is processed without a panic. -/
theorem processLine_isSome (q : Str) (st : ParseState) (l : Str) (h : Inv st)
    (hhdr : catTag.isPrefixOf l = true → 4 ≤ (splitTab l).length) :
    ∃ p, processLine q st l = some p := by
  rw [← Option.isSome_iff_exists]
  by_cases h1 : subcatTag.isPrefixOf l = true
  · simp [processLine, h1]
  · by_cases h2 : catTag.isPrefixOf l = true
    · have hlen := hhdr h2
      have e1 : (splitTab l)[1]? = some (splitTab l)[1] :=
        List.getElem?_eq_getElem (by omega)
      have e2 : (splitTab l)[2]? = some (splitTab l)[2] :=
        List.getElem?_eq_getElem (by omega)
      have e3 : (splitTab l)[3]? = some (splitTab l)[3] :=
        List.getElem?_eq_getElem (by omega)
      simp [processLine, h1, h2, e1, e2, e3]
    · by_cases h3 : catDescTag.isPrefixOf l = true
      · simp [processLine, h1, h2, h3]
      · by_cases h4 : (semiTag.isPrefixOf l || atTag.isPrefixOf l
            || twoTabTag.isPrefixOf l) = true
        · simp [processLine, h1, h2, h3, h4]
        · rcases hsp : splitTab l with _ | ⟨p0, _ | ⟨p1, _ | ⟨p2, tl3⟩⟩⟩
          · simp [processLine, h1, h2, h3, h4, hsp]
          · simp [processLine, h1, h2, h3, h4, hsp]
          · by_cases hp0 : p0.isEmpty = true
            · simp [processLine, h1, h2, h3, h4, hsp, hp0]
            · obtain ⟨ds, hm⟩ := matcher_cp q st h
              simp [processLine, h1, h2, h3, h4, hsp, hp0, hm]
          · simp [processLine, h1, h2, h3, h4, hsp]

/-- The loop runs to completion, preserving the invariant, when every
`"@@\t"` line of the document has at least four tab-separated fields. -/
theorem processLines_isSome (q : Str) :
    ∀ (doc : List Str) (st : ParseState), Inv st →
      (∀ l ∈ doc, catTag.isPrefixOf l = true → 4 ≤ (splitTab l).length) →
      ∃ st2 ds, processLines q doc st = some (st2, ds) ∧ Inv st2 := by
  intro doc
  induction doc with
  | nil => exact fun st h _ => ⟨st, [], rfl, h⟩
  | cons l ls IH =>
    intro st h hdoc
    obtain ⟨⟨st2, ds⟩, hpl⟩ :=
      processLine_isSome q st l h (hdoc l (List.mem_cons_self l ls))
    have h2 : Inv st2 := Inv_processLine hpl h
    obtain ⟨st3, ds2, hpls, h3⟩ :=
      IH st2 h2 (fun x hx => hdoc x (List.mem_cons_of_mem l hx))
    exact ⟨st3, ds ++ ds2, by simp [processLines, hpl, hpls], h3⟩

/-! ## Invariants of the spec-modelled exclusion filter -/

/-- States reachable under the exclusion set `excl`: no emitted record's
category is excluded, and a record can only be open under a non-excluded
category. -/
def InvEx (excl : List Str) (st : ParseState) : Prop :=
  (∀ r ∈ st.cp, r.Cat.Name ∉ excl) ∧ (st.ccat.Name ∈ excl → st.schr = [])

theorem evalRec_some {q : Str} {r : RawRec} {c : CodePoint}
    (h : evalRec q r = some c) : c.Cat = r.cat ∧ r.schr ≠ [] := by
  unfold evalRec at h
  split at h
  · split at h
    · exact Option.noConfusion h
    · rename_i i hp
      split at h
      · exact Option.noConfusion h
      · cases h
        refine ⟨rfl, fun hnil => ?_⟩
        rw [hnil, parseIntHex32_nil] at hp
        exact Option.noConfusion hp
  · exact Option.noConfusion h

/-- The final `matcher` preserves the no-excluded-record property of the
result list. -/
theorem InvEx_matcher_cp {excl : List Str} {q : Str} {st : ParseState}
    {p : ParseState × List Diag} (hinv : Inv st) (hex : InvEx excl st)
    (hm : matcher q st = some p) : ∀ r ∈ p.1.cp, r.Cat.Name ∉ excl := by
  obtain ⟨ds2, hm2⟩ := matcher_cp q st hinv
  rw [hm2] at hm
  cases hm
  intro r hr
  rcases List.mem_append.mp hr with hr | hr
  · exact hex.1 r hr
  · by_cases hs : st.schr.isEmpty = true
    · simp [openOf, closeRec, hs] at hr
    · have hr' : evalRec q ⟨st.schr, st.desc, st.ccat, st.cscat⟩ = some r := by
        simpa [openOf, closeRec, hs] using hr
      obtain ⟨hcat, hschr⟩ := evalRec_some hr'
      intro hmem2
      rw [hcat] at hmem2
      exact hschr (hex.2 hmem2)

theorem Inv_processLineEx {excl : List Str} {q : Str} {st : ParseState} {l : Str}
    {st' : ParseState} {ds : List Diag}
    (hpl : processLineEx excl q st l = some (st', ds)) (h : Inv st) : Inv st' := by
  unfold processLineEx at hpl
  split at hpl
  · cases hpl; exact h
  · exact Inv_processLine hpl h

theorem InvEx_processLineEx {excl : List Str} {q : Str} {st : ParseState} {l : Str}
    {st' : ParseState} {ds : List Diag}
    (hpl : processLineEx excl q st l = some (st', ds))
    (hinv : Inv st) (h : InvEx excl st) : InvEx excl st' := by
  by_cases hskip : isDataLine l = true ∧ st.category.Name ∈ excl
  · have hq : processLineEx excl q st l = some (st, []) := by
      simp [processLineEx, hskip]
    rw [hq] at hpl
    cases hpl
    exact h
  · have hpl' : processLine q st l = some (st', ds) := by
      rw [← hpl]; simp [processLineEx, hskip]
    by_cases h1 : subcatTag.isPrefixOf l = true
    · have hq : processLine q st l = some ({ st with subcategory := l.drop 3 }, []) := by
        simp [processLine, h1]
      rw [hq] at hpl'; cases hpl'; exact h
    · by_cases h2 : catTag.isPrefixOf l = true
      · rcases e1 : (splitTab l)[1]? with _ | p1 <;>
          rcases e2 : (splitTab l)[2]? with _ | p2 <;>
          rcases e3 : (splitTab l)[3]? with _ | p3 <;>
          [skip; skip; skip; skip; skip; skip; skip;
            (have hq : processLine q st l =
                some ({ st with category := { Name := p2, Start := p1, End := p3 } }, []) := by
              simp [processLine, h1, h2, e1, e2, e3]
             rw [hq] at hpl'; cases hpl'; exact h)] <;>
          (have hq : processLine q st l = none := by
            simp [processLine, h1, h2, e1, e2, e3]
           rw [hq] at hpl'; exact Option.noConfusion hpl')
      · by_cases h3 : catDescTag.isPrefixOf l = true
        · have hq : processLine q st l =
              some ({ st with category :=
                { st.category with Description := l.drop 4 } }, []) := by
            simp [processLine, h1, h2, h3]
          rw [hq] at hpl'; cases hpl'; exact h
        · by_cases h4 : (semiTag.isPrefixOf l || atTag.isPrefixOf l
              || twoTabTag.isPrefixOf l) = true
          · have hq : processLine q st l = some (st, []) := by
              simp [processLine, h1, h2, h3, h4]
            rw [hq] at hpl'; cases hpl'; exact h
          · have hdata : isDataLine l = true := by
              simp only [Bool.or_eq_true, not_or] at h4
              simp [isDataLine, h4.1.1, h4.1.2, h4.2]
            have hmem : st.category.Name ∉ excl := fun hm2 => hskip ⟨hdata, hm2⟩
            rcases hsp : splitTab l with _ | ⟨p0, _ | ⟨p1, _ | ⟨p2, tl3⟩⟩⟩
            · have hq : processLine q st l = some (st, [Diag.invalidFormat 0 l]) := by
                simp [processLine, h1, h2, h3, h4, hsp]
              rw [hq] at hpl'; cases hpl'; exact h
            · have hq : processLine q st l = some (st, [Diag.invalidFormat 1 l]) := by
                simp [processLine, h1, h2, h3, h4, hsp]
              rw [hq] at hpl'; cases hpl'; exact h
            · by_cases hp0 : p0.isEmpty = true
              · have hq : processLine q st l =
                    some ({ st with desc := st.desc ++ [toLower p1] }, []) := by
                  simp [processLine, h1, h2, h3, h4, hsp, hp0]
                rw [hq] at hpl'; cases hpl'; exact h
              · obtain ⟨dsm, hm⟩ := matcher_cp q st hinv
                have hq : processLine q st l =
                    some ({ st with
                              schr := p0, desc := [toLower p1],
                              ccat := st.category, cscat := st.subcategory,
                              cp := st.cp ++ (closeRec (openOf st)).filterMap (evalRec q) },
                          dsm) := by
                  simp [processLine, h1, h2, h3, h4, hsp, hp0, hm]
                rw [hq] at hpl'; cases hpl'
                refine ⟨?_, fun hc => absurd hc hmem⟩
                exact InvEx_matcher_cp hinv h hm
            · have hq : processLine q st l =
                  some (st, [Diag.invalidFormat (p0 :: p1 :: p2 :: tl3).length l]) := by
                simp [processLine, h1, h2, h3, h4, hsp]
              rw [hq] at hpl'; cases hpl'; exact h

/-- The exclusion-filtered loop preserves both invariants. -/
theorem InvEx_processLinesEx (excl : List Str) (q : Str) :
    ∀ (doc : List Str) (st : ParseState), Inv st → InvEx excl st →
      ∀ st2 ds, processLinesEx excl q doc st = some (st2, ds) →
        Inv st2 ∧ InvEx excl st2 := by
  intro doc
  induction doc with
  | nil =>
    intro st h hex st2 ds hrun
    simp only [processLinesEx] at hrun
    cases hrun
    exact ⟨h, hex⟩
  | cons l ls IH =>
    intro st h hex st2 ds hrun
    simp only [processLinesEx] at hrun
    rcases hpl : processLineEx excl q st l with _ | ⟨stm, dsm⟩
    · rw [hpl] at hrun; exact Option.noConfusion hrun
    · rw [hpl] at hrun
      dsimp only at hrun
      rcases hrun2 : processLinesEx excl q ls stm with _ | ⟨st3, ds3⟩
      · rw [hrun2] at hrun; exact Option.noConfusion hrun
      · rw [hrun2] at hrun
        cases hrun
        exact IH stm (Inv_processLineEx hpl h) (InvEx_processLineEx hpl h hex)
          st2 ds3 hrun2
/-! ## The match predicate: per-line versus concatenated description -/

theorem matchAll_eq_true_iff (target : List Str) (q : Str) :
    matchAll target q = true ↔
      ∀ part ∈ fields q, ∃ t ∈ target, strContains t part = true := by
  simp [matchAll, List.all_eq_true, List.any_eq_true]

theorem allCongr {α : Type} {l : List α} {f g : α → Bool}
    (h : ∀ a ∈ l, f a = g a) : l.all f = l.all g := by
  induction l with
  | nil => rfl
  | cons a l IH =>
    simp only [List.all_cons]
    rw [h a (List.mem_cons_self a l), IH fun x hx => h x (List.mem_cons_of_mem a hx)]

/-- Every part produced by `fields` is non-empty and whitespace-free. -/
theorem fieldsAux_props :
    ∀ (s acc : Str), (∀ c ∈ acc, isSpaceChar c = false) →
      ∀ p ∈ fieldsAux acc s, p ≠ [] ∧ ∀ c ∈ p, isSpaceChar c = false := by
  intro s
  induction s with
  | nil =>
    intro acc hacc p hp
    by_cases he : acc.isEmpty = true
    · simp only [fieldsAux, he, if_true] at hp
      exact absurd hp (List.not_mem_nil p)
    · simp only [fieldsAux, he, if_false, Bool.false_eq_true] at hp
      have hp' : p = acc.reverse := by simpa using hp
      subst hp'
      constructor
      · simpa [List.isEmpty_iff] using he
      · intro c hc
        exact hacc c (List.mem_reverse.mp hc)
  | cons c cs IH =>
    intro acc hacc p hp
    by_cases hsp : isSpaceChar c = true
    · by_cases he : acc.isEmpty = true
      · simp only [fieldsAux, hsp, he, if_true] at hp
        exact IH [] (by simp) p hp
      · simp only [fieldsAux, hsp, he, if_true, if_false] at hp
        rcases List.mem_cons.mp hp with hp' | hp'
        · subst hp'
          constructor
          · simpa [List.isEmpty_iff] using he
          · intro x hx
            exact hacc x (List.mem_reverse.mp hx)
        · exact IH [] (by simp) p hp'
    · simp only [fieldsAux, hsp, if_false] at hp
      refine IH (c :: acc) ?_ p hp
      intro x hx
      rcases List.mem_cons.mp hx with hx' | hx'
      · subst hx'
        simpa using hsp
      · exact hacc x hx'

theorem fields_props (q : Str) :
    ∀ p ∈ fields q, p ≠ [] ∧ ∀ c ∈ p, isSpaceChar c = false :=
  fieldsAux_props q [] (by simp)

/-- A separator absent from `sub` cannot be crossed by a prefix match. -/
theorem isPrefixOf_append_sep (sep : Char) :
    ∀ (sub x y : Str), sep ∉ sub →
      sub.isPrefixOf (x ++ sep :: y) = sub.isPrefixOf x := by
  intro sub
  induction sub with
  | nil => intro x y _; simp [List.isPrefixOf]
  | cons s ss IH =>
    intro x y hsep
    rcases x with _ | ⟨x0, xs⟩
    · have hs : (s == sep) = false := by
        simp only [List.mem_cons, not_or] at hsep
        exact beq_eq_false_iff_ne.mpr fun h => hsep.1 h.symm
      simp [List.isPrefixOf, hs]
    · simp only [List.cons_append, List.isPrefixOf, List.append_eq]
      rw [IH xs y (fun hmem => hsep (List.mem_cons_of_mem s hmem))]

/-- A substring search for a separator-free pattern distributes over the
separator. -/
theorem strContains_append_sep (sep : Char) (sub : Str) (hne : sub ≠ [])
    (hsep : sep ∉ sub) :
    ∀ a b : Str,
      strContains (a ++ sep :: b) sub = (strContains a sub || strContains b sub) := by
  intro a
  induction a with
  | nil =>
    intro b
    have h0 : sub.isPrefixOf (sep :: b) = sub.isPrefixOf ([] : Str) :=
      isPrefixOf_append_sep sep sub [] b hsep
    have h1 : sub.isPrefixOf ([] : Str) = false := by
      rcases sub with _ | _
      · exact absurd rfl hne
      · rfl
    have h2 : sub.isEmpty = false := by
      rcases sub with _ | _
      · exact absurd rfl hne
      · rfl
    simp [strContains, h0, h1, h2]
  | cons c a' IH =>
    intro b
    have hpre : sub.isPrefixOf ((c :: a') ++ sep :: b) = sub.isPrefixOf (c :: a') :=
      isPrefixOf_append_sep sep sub (c :: a') b hsep
    calc strContains ((c :: a') ++ sep :: b) sub
        = (sub.isPrefixOf ((c :: a') ++ sep :: b) || strContains (a' ++ sep :: b) sub) := rfl
      _ = (sub.isPrefixOf (c :: a') || (strContains a' sub || strContains b sub)) := by
          rw [hpre, IH b]
      _ = ((sub.isPrefixOf (c :: a') || strContains a' sub) || strContains b sub) := by
          rw [Bool.or_assoc]
      _ = (strContains (c :: a') sub || strContains b sub) := rfl

/-- For a non-empty space-free pattern, searching the space-joined
description equals searching line by line. -/
theorem strContains_joinSpace (sub : Str) (hne : sub ≠ []) (hsp : ' ' ∉ sub) :
    ∀ ds : List Str,
      strContains (joinSpace ds) sub = ds.any fun d => strContains d sub := by
  intro ds
  induction ds with
  | nil =>
    have h2 : sub.isEmpty = false := by
      rcases sub with _ | _
      · exact absurd rfl hne
      · rfl
    simp [joinSpace, strContains, h2]
  | cons d tl IH =>
    rcases tl with _ | ⟨e, tl2⟩
    · simp [joinSpace]
    · have hj : joinSpace (d :: e :: tl2) = d ++ ' ' :: joinSpace (e :: tl2) := rfl
      rw [hj, strContains_append_sep ' ' sub hne hsp d (joinSpace (e :: tl2)), IH]
      simp [List.any_cons]

/-- The per-line match of the code coincides with a match against the
space-concatenated description block. -/
theorem matchAll_join (desc : List Str) (q : Str) :
    matchAll desc q = matchAll [joinSpace desc] q := by
  unfold matchAll
  refine allCongr fun part hpart => ?_
  obtain ⟨hne, hfree⟩ := fields_props q part hpart
  have hsp : ' ' ∉ part := by
    intro hmem
    have := hfree ' ' hmem
    simp [isSpaceChar] at this
  rw [List.any_cons, List.any_nil, Bool.or_false,
    strContains_joinSpace part hne hsp desc]
/-! ## Order facts for the distinct-categories listing -/

theorem strLe_total : ∀ a b : Str, strLe a b = true ∨ strLe b a = true := by
  intro a
  induction a with
  | nil => intro b; left; rfl
  | cons x xs IH =>
    intro b
    rcases b with _ | ⟨y, ys⟩
    · right; rfl
    · rcases Nat.lt_trichotomy x.toNat y.toNat with h | h | h
      · left; simp [strLe, h]
      · rcases IH ys with h2 | h2
        · left; simp [strLe, h, h2]
        · right; simp [strLe, h.symm, h2]
      · right; simp [strLe, h]

theorem strLe_trans :
    ∀ a b c : Str, strLe a b = true → strLe b c = true → strLe a c = true := by
  intro a
  induction a with
  | nil => intro b c _ _; rfl
  | cons x xs IH =>
    intro b c hab hbc
    rcases b with _ | ⟨y, ys⟩
    · exact absurd hab (by simp [strLe])
    · rcases c with _ | ⟨z, zs⟩
      · exact absurd hbc (by simp [strLe])
      · simp only [strLe] at hab hbc ⊢
        split at hab
        · rename_i hxy
          split at hbc
          · rename_i hyz
            simp [Nat.lt_trans hxy hyz]
          · split at hbc
            · exact absurd hbc (by simp)
            · rename_i hyz hzy
              have hzy' : z.toNat = y.toNat := by omega
              simp [hzy' ▸ hxy]
        · split at hab
          · exact absurd hab (by simp)
          · rename_i hxy hyx
            have hxy' : x.toNat = y.toNat := by omega
            split at hbc
            · rename_i hyz
              simp [hxy' ▸ hyz]
            · split at hbc
              · exact absurd hbc (by simp)
              · rename_i hyz hzy
                have hyz' : y.toNat = z.toNat := by omega
                have hxz : ¬ x.toNat < z.toNat := by omega
                have hzx : ¬ z.toNat < x.toNat := by omega
                simp [hxz, hzx]
                exact IH ys zs hab hbc

instance : IsTotal Str strLeRel := ⟨strLe_total⟩

instance : IsTrans Str strLeRel := ⟨strLe_trans⟩
/-! ## Malformed data lines -/

/-- A non-comment, non-at, non-double-tab line that does not tab-split into
exactly two fields is reported and skipped with no other state change. -/
theorem processLine_malformed (q : Str) (st : ParseState) (line : Str)
    (hSemi : semiTag.isPrefixOf line = false)
    (hAt : atTag.isPrefixOf line = false)
    (hTwoTab : twoTabTag.isPrefixOf line = false)
    (hlen : (splitTab line).length ≠ 2) :
    processLine q st line
      = some (st, [Diag.invalidFormat (splitTab line).length line]) := by
  have h1 : subcatTag.isPrefixOf line = false := by
    cases hc : subcatTag.isPrefixOf line
    · rfl
    · have h2 : atTag.isPrefixOf line = true :=
        List.isPrefixOf_iff_prefix.mpr
          (List.IsPrefix.trans ⟨'\t' :: '\t' :: [], rfl⟩
            (List.isPrefixOf_iff_prefix.mp hc))
      rw [h2] at hAt
      exact Bool.noConfusion hAt
  have h2 : catTag.isPrefixOf line = false := by
    cases hc : catTag.isPrefixOf line
    · rfl
    · have h2 : atTag.isPrefixOf line = true :=
        List.isPrefixOf_iff_prefix.mpr
          (List.IsPrefix.trans ⟨'@' :: '\t' :: [], rfl⟩
            (List.isPrefixOf_iff_prefix.mp hc))
      rw [h2] at hAt
      exact Bool.noConfusion hAt
  have h3 : catDescTag.isPrefixOf line = false := by
    cases hc : catDescTag.isPrefixOf line
    · rfl
    · have h2 : atTag.isPrefixOf line = true :=
        List.isPrefixOf_iff_prefix.mpr
          (List.IsPrefix.trans ⟨'+' :: '\t' :: '\t' :: [], rfl⟩
            (List.isPrefixOf_iff_prefix.mp hc))
      rw [h2] at hAt
      exact Bool.noConfusion hAt
  have h4 : (semiTag.isPrefixOf line || atTag.isPrefixOf line
      || twoTabTag.isPrefixOf line) = false := by
    simp [hSemi, hAt, hTwoTab]
  rcases hsp : splitTab line with _ | ⟨p0, _ | ⟨p1, _ | ⟨p2, tl3⟩⟩⟩
  · simp [processLine, h1, h2, h3, h4, hsp]
  · simp [processLine, h1, h2, h3, h4, hsp]
  · exact absurd (by rw [hsp]; rfl) hlen
  · simp [processLine, h1, h2, h3, h4, hsp]

/-! ## The claims -/

/-- Claim C1: a finalized record passes the match predicate iff the query
is empty (match-all), or every whitespace-separated lower-cased query term
is a substring of at least one line of the lowered description list, or
every term is a substring of the lowered category name or the lowered
subcategory; moreover the per-line description branch coincides with a
substring search over the space-concatenated description block (the terms
are whitespace-free, so no term can cross a join boundary). -/
theorem claim_C1 (desc : List Str) (catName subcat query : Str) :
    ((matchAll desc (toLower query)
        || matchAll [toLower catName, toLower subcat] (toLower query)) = true
      ↔ (query = []
         ∨ (∀ part ∈ fields (toLower query), ∃ t ∈ desc, strContains t part = true)
         ∨ (∀ part ∈ fields (toLower query),
              strContains (toLower catName) part = true
                ∨ strContains (toLower subcat) part = true)))
    ∧ matchAll desc (toLower query) = matchAll [joinSpace desc] (toLower query) := by
  constructor
  · constructor
    · intro h
      rw [Bool.or_eq_true] at h
      rcases h with h | h
      · exact Or.inr (Or.inl ((matchAll_eq_true_iff desc (toLower query)).mp h))
      · refine Or.inr (Or.inr fun part hp => ?_)
        obtain ⟨t, ht, hc⟩ := (matchAll_eq_true_iff _ _).mp h part hp
        rcases List.mem_cons.mp ht with h1 | h1
        · exact Or.inl (h1 ▸ hc)
        · have h2 : t = toLower subcat := by simpa using h1
          exact Or.inr (h2 ▸ hc)
    · intro h
      rw [Bool.or_eq_true]
      rcases h with h | h | h
      · subst h
        refine Or.inl ((matchAll_eq_true_iff _ _).mpr ?_)
        intro part hp
        simp [toLower, fields, fieldsAux] at hp
      · exact Or.inl ((matchAll_eq_true_iff _ _).mpr h)
      · refine Or.inr ((matchAll_eq_true_iff _ _).mpr ?_)
        intro part hp
        rcases h part hp with hc | hc
        · exact ⟨toLower catName, by simp, hc⟩
        · exact ⟨toLower subcat, by simp, hc⟩
  · exact matchAll_join desc (toLower query)

/-- Claim C2: the incremental search equals the per-record restatement
`goldSearch`, which finalizes every record exactly once — only when its
description block is fully assembled (at the next opening data line or at
end of input) — and evaluates each collected record exactly once, so no
record is appended twice or evaluated on a partial description. -/
theorem claim_C2 (search : Str) (doc : List Str) :
    searchNamesList search doc = goldSearch search doc := by
  rw [searchNamesList_eq_finishFrom,
    toGold (toLower search) doc initState initState_Inv]
  unfold goldSearch
  simp only [show (initState.category : Category) = {} from rfl,
    show initState.subcategory = ([] : Str) from rfl,
    show openOf initState = none from rfl,
    show initState.cp = ([] : List CodePoint) from rfl]
  rcases hc : collectRecs {} [] none doc with _ | recs <;> simp [hc]

/-- Claim C3: on the three-line fixture (category header "Basic Latin",
subcategory marker "Controls", data line for U+0041) the query "capital a"
returns exactly one record with code point 0x41 and lowered description
"latin capital letter a"; the query "controls" returns the same single
record, and only via the category/subcategory fallback, since no term of it
occurs in the description block. -/
theorem claim_C3 :
    searchNamesList ("capital a".data) doc3 = some [rec3]
    ∧ searchNamesList ("controls".data) doc3 = some [rec3]
    ∧ rec3.Chr = 0x41
    ∧ rec3.Desc = "latin capital letter a".data
    ∧ matchAll rec3.FullDesc (toLower ("controls".data)) = false
    ∧ matchAll [toLower rec3.Cat.Name, toLower rec3.Subcategory]
        (toLower ("controls".data)) = true := by
  decide

/-- Claim C4 (spec-modelled exclusion filter): under any exclusion set, a
record whose category name is excluded never appears in the results, and an
excluded data line is skipped with no state change at all. -/
theorem claim_C4 :
    (∀ (excl : List Str) (search : Str) (doc : List Str) (res : List CodePoint),
        searchNamesListEx excl search doc = some res →
          ∀ r ∈ res, r.Cat.Name ∉ excl)
    ∧ (∀ (excl : List Str) (search : Str) (st : ParseState) (line : Str),
        isDataLine line = true → st.category.Name ∈ excl →
          processLineEx excl search st line = some (st, [])) := by
  constructor
  · intro excl search doc res hres r hr
    unfold searchNamesListEx at hres
    dsimp only at hres
    rcases e : processLinesEx excl (toLower search) doc initState with _ | ⟨st, ds⟩
    · rw [e] at hres; exact Option.noConfusion hres
    · rw [e] at hres
      dsimp only at hres
      rcases em : matcher (toLower search) st with _ | ⟨st2, ds2⟩
      · rw [em] at hres; exact Option.noConfusion hres
      · rw [em] at hres
        cases hres
        obtain ⟨hinv, hex⟩ := InvEx_processLinesEx excl (toLower search) doc initState
          initState_Inv ⟨fun x hx => absurd hx (List.not_mem_nil x), fun _ => rfl⟩ st ds e
        exact InvEx_matcher_cp hinv hex em r hr
  · intro excl search st line hdata hmem
    simp [processLineEx, hdata, hmem]

/-- Witness for claim C4: on the C3 fixture with the exclusion set
containing only "Greek", the returned record's category is not excluded. -/
theorem claim_C4_wit : rec3.Cat.Name ∉ ["Greek".data] :=
  claim_C4.1 ["Greek".data] ("capital a".data) doc3 [rec3] (by decide) rec3
    (by decide)

/-- Counterexample to claim C5: a category header does not clear the
subcategory.  After "@@ ... Beta ..." replaces category "Alpha", the record
opened under "Beta" still carries the subcategory "Sub1" declared under
"Alpha", and the query "sub1" finds it through the fallback. -/
theorem claim_C5_cex :
    searchNamesList ("sub1".data) doc5 = some [rec5]
    ∧ rec5.Cat.Name = "Beta".data ∧ rec5.Subcategory = "Sub1".data := by
  decide

/-- Claim C5 as amended: processing a category header line leaves both the
running subcategory and the open record's captured subcategory unchanged;
the subcategory persists until the next subcategory marker, even across
category changes. -/
theorem claim_C5_amended (q : Str) (st : ParseState) (line : Str)
    (st' : ParseState) (ds : List Diag)
    (hpre : catTag.isPrefixOf line = true)
    (h : processLine q st line = some (st', ds)) :
    st'.subcategory = st.subcategory ∧ st'.cscat = st.cscat := by
  obtain ⟨t, ht⟩ := List.isPrefixOf_iff_prefix.mp hpre
  have h1 : subcatTag.isPrefixOf line = false := by
    rw [← ht]; rfl
  rw [← ht] at h
  simp only [processLine, h1, Bool.false_eq_true, if_false,
    List.isPrefixOf_iff_prefix.mpr ⟨t, rfl⟩, if_true] at h
  rcases e1 : (splitTab (catTag ++ t))[1]? with _ | p1 <;> rw [e1] at h
  · exact Option.noConfusion h
  rcases e2 : (splitTab (catTag ++ t))[2]? with _ | p2 <;> rw [e2] at h
  · exact Option.noConfusion h
  rcases e3 : (splitTab (catTag ++ t))[3]? with _ | p3 <;> rw [e3] at h
  · exact Option.noConfusion h
  cases h
  exact ⟨rfl, rfl⟩

/-- The state after the witness header line for claim C5. -/
def stHdr : ParseState :=
  { initState with category := ⟨"Alpha".data, "0000".data, "007F".data, []⟩ }

/-- Witness for the amended claim C5, on a concrete header line. -/
theorem claim_C5_amended_wit :
    stHdr.subcategory = initState.subcategory ∧ stHdr.cscat = initState.cscat :=
  claim_C5_amended [] initState ("@@\t0000\tAlpha\t007F".data) stHdr []
    (by decide) (by decide)
/-- Counterexample to claim C6: evaluation is not guarded by "a record is
currently open".  Processing the very first data line from the zero state
does run the finalization routine: with an empty query the match-all
predicate succeeds on the empty description, and the attempt to parse the
empty code-point string emits the "invalid rune" diagnostic.  (Nothing is
appended, but only because the empty string never parses as hexadecimal.) -/
theorem claim_C6_cex :
    (processLine [] initState ("0041\tX".data)).map (fun p => p.2)
        = some [Diag.invalidRune []]
    ∧ matchAll initState.desc (toLower []) = true := by
  decide

/-- Claim C6 as amended: while the first data line does invoke the matcher
with no record open, it never appends to the results: from any state with
the zero `schr`, processing any line leaves the result list unchanged,
because the empty code-point string fails the hexadecimal parse. -/
theorem claim_C6_amended (q : Str) (st : ParseState) (line : Str)
    (st' : ParseState) (ds : List Diag) (hs : st.schr = [])
    (h : processLine q st line = some (st', ds)) : st'.cp = st.cp := by
  unfold processLine at h
  split at h
  · cases h; rfl
  · split at h
    · dsimp only at h
      split at h
      · cases h; rfl
      · exact Option.noConfusion h
    · split at h
      · cases h; rfl
      · split at h
        · cases h; rfl
        · split at h
          · split at h
            · cases h; rfl
            · obtain ⟨ds0, hm⟩ := matcher_cp q st (Or.inl hs)
              rw [hm] at h
              dsimp only at h
              cases h
              simp [openOf, closeRec, hs]
          · cases h; rfl

/-- The state after the witness first data line for claim C6. -/
def stOpen : ParseState :=
  { initState with schr := "0041".data, desc := ["x".data] }

/-- Witness for the amended claim C6: the first data line of a document
appends nothing to the (empty) result list. -/
theorem claim_C6_amended_wit : stOpen.cp = initState.cp :=
  claim_C6_amended [] initState ("0041\tX".data) stOpen [Diag.invalidRune []]
    rfl (by decide)

/-- Claim C7: when the input ends with a record still open, that record is
evaluated exactly once after end of input: the final result is the
accumulated list plus exactly one entry for the final record if it passes
the match predicate, and nothing otherwise. -/
theorem claim_C7 (search : Str) (doc : List Str) (st : ParseState)
    (ds : List Diag) (i : Int) (d : Str) (t : List Str)
    (hrun : processLines (toLower search) doc initState = some (st, ds))
    (hparse : parseIntHex32 st.schr = some i)
    (hdesc : st.desc = d :: t) :
    searchNamesList search doc =
      some (st.cp ++
        (if (matchAll st.desc (toLower search)
            || matchAll [toLower st.ccat.Name, toLower st.cscat] (toLower search)) = true
         then [⟨i, d, st.desc, st.ccat, st.cscat⟩] else [])) := by
  rw [searchNamesList_eq_finishFrom]
  unfold finishFrom
  rw [hrun]
  dsimp only
  by_cases hg : (matchAll st.desc (toLower search)
      || matchAll [toLower st.ccat.Name, toLower st.cscat] (toLower search)) = true
  · have hm : matcher (toLower search) st =
        some ({ st with cp := st.cp ++ [⟨i, d, st.desc, st.ccat, st.cscat⟩] }, []) := by
      unfold matcher
      rw [if_pos hg, hparse, hdesc]
    rw [hm, if_pos hg]
    rfl
  · have hm : matcher (toLower search) st = some (st, []) := by
      unfold matcher
      rw [if_neg hg]
    rw [hm, if_neg hg]
    simp

/-- The loop state left open at end of input in the claim C7 witness. -/
def stOpenW : ParseState :=
  { initState with schr := "0041".data, desc := ["foo".data] }

/-- Witness for claim C7: a document whose single record is still open at
end of input, with a query its description matches. -/
theorem claim_C7_wit :
    searchNamesList ("foo".data) docW =
      some (stOpenW.cp ++
        (if (matchAll stOpenW.desc (toLower ("foo".data))
            || matchAll [toLower stOpenW.ccat.Name, toLower stOpenW.cscat]
                (toLower ("foo".data))) = true
         then [⟨65, "foo".data, stOpenW.desc, stOpenW.ccat, stOpenW.cscat⟩]
         else [])) :=
  claim_C7 ("foo".data) docW stOpenW [] 65 ("foo".data) [] (by decide)
    (by decide) rfl

/-- Claim C8: a non-marker, non-comment line that does not tab-split into
exactly two fields is reported (an "invalid format" diagnostic) and skipped
with no change to the parser state, and deleting such a line from any
document position does not change the search results, so a well-formed
record after it is still found. -/
theorem claim_C8 :
    (∀ (q : Str) (st : ParseState) (line : Str),
        semiTag.isPrefixOf line = false → atTag.isPrefixOf line = false →
        twoTabTag.isPrefixOf line = false → (splitTab line).length ≠ 2 →
        processLine q st line
          = some (st, [Diag.invalidFormat (splitTab line).length line]))
    ∧ (∀ (search : Str) (pre post : List Str) (line : Str),
        semiTag.isPrefixOf line = false → atTag.isPrefixOf line = false →
        twoTabTag.isPrefixOf line = false → (splitTab line).length ≠ 2 →
        searchNamesList search (pre ++ line :: post)
          = searchNamesList search (pre ++ post)) := by
  constructor
  · exact processLine_malformed
  · intro search pre post line hSemi hAt hTwoTab hlen
    rw [searchNamesList_eq_finishFrom, searchNamesList_eq_finishFrom,
      finishFrom_append, finishFrom_append]
    rcases e : processLines (toLower search) pre initState with _ | ⟨st2, ds⟩
    · rfl
    · dsimp only
      rw [finishFrom_cons,
        processLine_malformed (toLower search) st2 line hSemi hAt hTwoTab hlen]

/-- Witness for claim C8: inserting a malformed (tab-free) line ahead of
the C3 fixture does not change the result of the search. -/
theorem claim_C8_wit :
    searchNamesList ("capital a".data) ([] ++ "badline".data :: doc3)
      = searchNamesList ("capital a".data) ([] ++ doc3) :=
  claim_C8.2 ("capital a".data) [] doc3 ("badline".data) (by decide)
    (by decide) (by decide) (by decide)

/-- Claim C9 (spec-modelled cats listing): the distinct-categories output
is sorted, duplicate-free, contains exactly the category names of the
matching records, and on a fixture with two matching records in category
"Basic Latin" and one in "Greek" it is exactly ["Basic Latin", "Greek"]. -/
theorem claim_C9 :
    (∀ cps : List CodePoint, List.Sorted strLeRel (catsOutput cps))
    ∧ (∀ cps : List CodePoint, (catsOutput cps).Nodup)
    ∧ (∀ (cps : List CodePoint) (x : Str),
        x ∈ catsOutput cps ↔ ∃ c ∈ cps, c.Cat.Name = x)
    ∧ (searchNamesList ("a".data) doc9).map catsOutput
        = some ["Basic Latin".data, "Greek".data] := by
  refine ⟨?_, ?_, ?_, ?_⟩
  · intro cps
    exact List.sorted_insertionSort strLeRel _
  · intro cps
    exact (List.perm_insertionSort strLeRel _).nodup_iff.mpr (List.nodup_dedup _)
  · intro cps x
    rw [catsOutput, List.mem_insertionSort, List.mem_dedup]
    simp
  · decide

/-- Claim C10: the unchecked `parts[1]`, `parts[2]`, `parts[3]` accesses of
the category-header branch are safe — the whole search returns a value —
whenever every `"@@\t"`-prefixed line of the document tab-splits into at
least four fields; and the precondition is necessary: a shorter header line
makes the search panic (modelled as `none`). -/
theorem claim_C10 :
    (∀ (search : Str) (doc : List Str),
        (∀ l ∈ doc, catTag.isPrefixOf l = true → 4 ≤ (splitTab l).length) →
        ∃ res, searchNamesList search doc = some res)
    ∧ searchNamesList [] ["@@\t0000".data] = none := by
  constructor
  · intro search doc hdoc
    obtain ⟨st2, ds, hrun, hinv⟩ :=
      processLines_isSome (toLower search) doc initState initState_Inv hdoc
    obtain ⟨⟨stf, dsf⟩, hm⟩ := matcher_isSome (toLower search) st2 hinv
    refine ⟨stf.cp, ?_⟩
    rw [searchNamesList_eq_finishFrom]
    unfold finishFrom
    rw [hrun]
    dsimp only
    rw [hm]
    rfl
  · decide

/-- Witness for claim C10: the C3 fixture satisfies the header-shape
precondition, so the search returns a value on it. -/
theorem claim_C10_wit : ∃ res, searchNamesList ("capital a".data) doc3 = some res :=
  claim_C10.1 ("capital a".data) doc3 (by decide)
end Unifind
